import Mathlib

/-!
Verification of the input-construction and trace-layout core of the Miden VM
(`core/src/inputs/mod.rs` and `core/src/lib.rs`), as a shallow embedding.

Raw caller integers are modelled as `Nat`; field elements as naturals below
the modulus of the `f64` base field; `BTreeMap` as an association list with
insert-returns-old semantics; fallible constructors return `Except`.
-/

namespace Miden

/-- Modelled from the spec: the field-element primitive is external to the
examined sources.  The VM's native prime field is `f64` with modulus
`2^64 - 2^32 + 1`; an integer is representable iff it is strictly less than
the modulus. -/
def P : Nat := 18446744069414584321

/-- A validated field element: its canonical value together with the proof
that it lies below the modulus. -/
structure Felt where
  val : Nat
  isLt : val < P
deriving DecidableEq

/-- Conversion of a raw `u64` value into a field element (`try_into` in
`with_advice_map`): succeeds exactly when the value is below the modulus. -/
def u64ToFelt (v : Nat) : Option Felt :=
  if h : v < P then some ⟨v, h⟩ else none

/-- `Word` from `core/src/lib.rs`: an ordered 4-tuple of field elements. -/
abbrev Word := Felt × Felt × Felt × Felt

/-- Little-endian byte decomposition of one field element's canonical value
(8 bytes).  Modelled from the spec: the `IntoBytes` utility is external to the
examined sources; keys are "the canonical byte encoding of each set's
committed root (a fixed-size digest derived from a Word)". -/
def leBytes8 (n : Nat) : List Nat :=
  [n % 256, n / 256 % 256, n / 65536 % 256, n / 16777216 % 256,
   n / 4294967296 % 256, n / 1099511627776 % 256,
   n / 281474976710656 % 256, n / 72057594037927936 % 256]

/-- Modelled from the spec: 32-byte encoding of a `Word`, the key type of the
advice maps (`[u8; 32]` in the source). -/
def intoBytes (w : Word) : List Nat :=
  leBytes8 w.1.val ++ leBytes8 w.2.1.val ++ leBytes8 w.2.2.1.val ++
    leBytes8 w.2.2.2.val

/-- `InputError` from `core/src/errors.rs` (the variants and payloads are as
used at the call sites in `core/src/inputs/mod.rs`). -/
inductive InputError where
  | NotFieldElement (value : Nat) (name : String)
  | DuplicateAdviceRoot (key : List Nat)
deriving DecidableEq

/-- Modelled from the spec: the advice-set implementation
(`core/src/inputs/advice.rs`) is not among the examined sources; the only
behavior of an advice set observable from the input layer is `root()`, so an
advice set is modelled by its committed root `Word`. -/
structure AdviceSet where
  root : Word
deriving DecidableEq

/-- Association-list model of `BTreeMap` keyed by 32-byte encodings. -/
abbrev KeyMap (β : Type) := List (List Nat × β)

/-- Map value type of `advice_map`. -/
abbrev AdviceMap := KeyMap (List Felt)

/-- Map value type of `advice_sets`. -/
abbrev AdviceSetMap := KeyMap AdviceSet

/-- `BTreeMap::get`: the value stored at a key, if present. -/
def mapLookup {β : Type} (m : KeyMap β) (k : List Nat) : Option β :=
  match m with
  | [] => none
  | (k2, v) :: rest => if k2 = k then some v else mapLookup rest k

/-- `BTreeMap::insert`: store a value at a key, returning the new map and the
value previously stored at that key (if any). -/
def mapInsert {β : Type} (m : KeyMap β) (k : List Nat) (v : β) :
    KeyMap β × Option β :=
  match m with
  | [] => ([(k, v)], none)
  | (k2, v2) :: rest =>
    if k2 = k then ((k2, v) :: rest, some v2)
    else
      let r := mapInsert rest k v
      ((k2, v2) :: r.1, r.2)

/-- The element-conversion loops of `with_advice_map`: convert each raw value
with `try_into`, failing with `NotFieldElement(value, name)` at the first
value that is not a valid field element. -/
def convertElements (vals : List Nat) (name : String) :
    Except InputError (List Felt) :=
  match vals with
  | [] => .ok []
  | v :: rest =>
    match u64ToFelt v with
    | none => .error (.NotFieldElement v name)
    | some e =>
      match convertElements rest name with
      | .error er => .error er
      | .ok es => .ok (e :: es)

/-- The registration key of an advice set: the byte encoding of its root
(`advice_set.root().into_bytes()`). -/
def setKey (s : AdviceSet) : List Nat := intoBytes s.root

/-- The advice-set registration loop of `with_advice_map`: insert each set
under the byte encoding of its root, failing with `DuplicateAdviceRoot(key)`
as soon as an insert finds the key already present. -/
def registerSets (acc : AdviceSetMap) :
    List AdviceSet → Except InputError AdviceSetMap
  | [] => .ok acc
  | s :: rest =>
    let key := setKey s
    let r := mapInsert acc key s
    match r.2 with
    | some _ => .error (.DuplicateAdviceRoot key)
    | none => registerSets r.1 rest

/-- `ProgramInputs` from `core/src/inputs/mod.rs`. -/
structure ProgramInputs where
  stack_init : List Felt
  advice_tape : List Felt
  advice_map : AdviceMap
  advice_sets : AdviceSetMap
deriving DecidableEq

namespace ProgramInputs

/-- `ProgramInputs::with_advice_map`: convert the initial stack values in
reverse input order, then the advice tape values in input order, then
register the advice sets; the first failure aborts construction. -/
def with_advice_map (stack_init advice_tape : List Nat)
    (advice_map : AdviceMap) (advice_sets : List AdviceSet) :
    Except InputError ProgramInputs :=
  match convertElements stack_init.reverse "initial stack value" with
  | .error e => .error e
  | .ok init_stack_elements =>
    match convertElements advice_tape "advice tape value" with
    | .error e => .error e
    | .ok advice_tape_elements =>
      match registerSets [] advice_sets with
      | .error e => .error e
      | .ok advice_sets_elements =>
        .ok ⟨init_stack_elements, advice_tape_elements, advice_map,
          advice_sets_elements⟩

/-- `ProgramInputs::new`: construction with an empty advice map. -/
def new (stack_init advice_tape : List Nat) (advice_sets : List AdviceSet) :
    Except InputError ProgramInputs :=
  with_advice_map stack_init advice_tape [] advice_sets

/-- `ProgramInputs::from_stack_inputs`: stack inputs only. -/
def from_stack_inputs (stack_init : List Nat) :
    Except InputError ProgramInputs :=
  new stack_init [] []

/-- `ProgramInputs::into_parts`: decompose into the four raw containers. -/
def into_parts (p : ProgramInputs) :
    List Felt × List Felt × AdviceMap × AdviceSetMap :=
  (p.stack_init, p.advice_tape, p.advice_map, p.advice_sets)

end ProgramInputs

/-- `MIN_STACK_DEPTH` from `core/src/lib.rs`. -/
def MIN_STACK_DEPTH : Nat := 16

/-- `utils::range`: the half-open column range starting at `offset` of the
given `width`, modelled as a `(start, stop)` pair. -/
def range (offset width : Nat) : Nat × Nat := (offset, offset + width)

def SYS_TRACE_OFFSET : Nat := 0

def SYS_TRACE_WIDTH : Nat := 2

def SYS_TRACE_RANGE : Nat × Nat := range SYS_TRACE_OFFSET SYS_TRACE_WIDTH

def STACK_TRACE_OFFSET : Nat := SYS_TRACE_OFFSET + SYS_TRACE_WIDTH

def STACK_TRACE_WIDTH : Nat := MIN_STACK_DEPTH

def STACK_TRACE_RANGE : Nat × Nat :=
  range STACK_TRACE_OFFSET STACK_TRACE_WIDTH

def AUX_TRACE_OFFSET : Nat := STACK_TRACE_OFFSET + STACK_TRACE_WIDTH

def AUX_TRACE_WIDTH : Nat := 18

def AUX_TRACE_RANGE : Nat × Nat := range AUX_TRACE_OFFSET AUX_TRACE_WIDTH

def TRACE_WIDTH : Nat := AUX_TRACE_OFFSET + AUX_TRACE_WIDTH

/-- Membership of a column index in a `(start, stop)` range. -/
def memRange (r : Nat × Nat) (i : Nat) : Prop := r.1 ≤ i ∧ i < r.2

/-- Modelled from the spec: the concrete advice-set variants
(`core/src/inputs/advice.rs`) are not among the examined sources.  This is
the fixed-depth balanced Merkle tree variant over `Word`-valued leaves,
with internal nodes combined by the external two-to-one hash `merge`
(kept as an explicit parameter since the hasher is out of scope). -/
inductive MerkleTree where
  | leaf (w : Word)
  | node (l r : MerkleTree)

namespace MerkleTree

/-- `Root()`: a leaf is its own digest; an internal node is the hash of its
children's digests. -/
def root (merge : Word → Word → Word) : MerkleTree → Word
  | .leaf w => w
  | .node l r => merge (l.root merge) (r.root merge)

/-- `GetLeaf(index, depth)`: the leaf `Word` at the given index of a tree of
the given depth, addressing the left subtree when the index is below
`2 ^ (depth - 1)`; fails (returns `none`) when the depth does not match the
tree shape or the index is out of range. -/
def get_leaf : MerkleTree → Nat → Nat → Option Word
  | .leaf w, 0, i => if i = 0 then some w else none
  | .node l r, d + 1, i =>
    if i < 2 ^ d then l.get_leaf d i else r.get_leaf d (i - 2 ^ d)
  | _, _, _ => none

/-- `GetPath(index, depth)`: the ordered sequence of sibling digests from the
leaf up to (but not including) the root, with the same failure modes as
`get_leaf`. -/
def get_path (merge : Word → Word → Word) :
    MerkleTree → Nat → Nat → Option (List Word)
  | .leaf _, 0, i => if i = 0 then some [] else none
  | .node l r, d + 1, i =>
    if i < 2 ^ d then
      (l.get_path merge d i).map (fun p => p ++ [r.root merge])
    else
      (r.get_path merge d (i - 2 ^ d)).map (fun p => p ++ [l.root merge])
  | _, _, _ => none

end MerkleTree

/-- Re-hashing a leaf against an ordered sibling sequence: at each level the
low bit of the index decides whether the running digest is the left or the
right input of the hash. -/
def computeRoot (merge : Word → Word → Word) :
    Nat → Word → List Word → Word
  | _, w, [] => w
  | i, w, s :: rest =>
    computeRoot merge (i / 2) (if i % 2 = 0 then merge w s else merge s w)
      rest

/-- The zero field element, used in concrete instantiations. -/
def felt0 : Felt := ⟨0, by decide⟩

/-- The one field element, used in concrete instantiations. -/
def felt1 : Felt := ⟨1, by decide⟩

/-- A concrete word of zeros. -/
def word0 : Word := (felt0, felt0, felt0, felt0)

/-- A concrete word distinct from `word0`. -/
def word1 : Word := (felt1, felt0, felt0, felt0)

/-- A concrete advice set with root `word0`. -/
def setA : AdviceSet := ⟨word0⟩

/-- A concrete advice set with root `word1`. -/
def setB : AdviceSet := ⟨word1⟩

/-- A concrete two-to-one function standing in for the external hash in
concrete instantiations. -/
def mergeFst : Word → Word → Word := fun a _ => a

-- CONVERSION LEMMAS
-- ===============================================================

theorem convertElements_ok_of_valid (vals : List Nat) (name : String)
    (h : ∀ v ∈ vals, v < P) :
    ∃ es, convertElements vals name = .ok es ∧ es.map Felt.val = vals := by
  induction vals with
  | nil => exact ⟨[], rfl, rfl⟩
  | cons v rest ih =>
    have hv : v < P := h v (List.mem_cons_self v rest)
    obtain ⟨es, he, hm⟩ := ih (fun u hu => h u (List.mem_cons_of_mem _ hu))
    refine ⟨⟨v, hv⟩ :: es, ?_, ?_⟩
    · simp [convertElements, u64ToFelt, hv, he]
    · simp [hm]

theorem convertElements_error_first (l1 : List Nat) (v : Nat) (l2 : List Nat)
    (name : String) (h1 : ∀ u ∈ l1, u < P) (hv : P ≤ v) :
    convertElements (l1 ++ v :: l2) name =
      .error (.NotFieldElement v name) := by
  induction l1 with
  | nil => simp [convertElements, u64ToFelt, Nat.not_lt.mpr hv]
  | cons u rest ih =>
    have hu : u < P := h1 u (List.mem_cons_self _ _)
    have hr := ih (fun x hx => h1 x (List.mem_cons_of_mem _ hx))
    simp [convertElements, u64ToFelt, hu, hr]

theorem convertElements_error_of_invalid (vals : List Nat) (name : String)
    (h : ∃ v ∈ vals, P ≤ v) :
    ∃ v, v ∈ vals ∧ P ≤ v ∧
      convertElements vals name = .error (.NotFieldElement v name) := by
  induction vals with
  | nil => simp at h
  | cons u rest ih =>
    by_cases hu : u < P
    · obtain ⟨v, hv, hvp⟩ := h
      rcases List.mem_cons.mp hv with h1 | h2
      · omega
      · obtain ⟨w, hw, hwp, he⟩ := ih ⟨v, h2, hvp⟩
        exact ⟨w, List.mem_cons_of_mem _ hw, hwp, by
          simp [convertElements, u64ToFelt, hu, he]⟩
    · refine ⟨u, List.mem_cons_self _ _, Nat.le_of_not_lt hu, ?_⟩
      simp [convertElements, u64ToFelt, hu]

-- MAP LEMMAS
-- ===============================================================

theorem mapLookup_append {β : Type} (l1 l2 : KeyMap β) (k : List Nat) :
    mapLookup (l1 ++ l2) k =
      match mapLookup l1 k with
      | some v => some v
      | none => mapLookup l2 k := by
  induction l1 with
  | nil => rfl
  | cons p rest ih =>
    by_cases h : p.1 = k <;> simp [mapLookup, h, ih]

theorem mapInsert_snd {β : Type} (m : KeyMap β) (k : List Nat) (v : β) :
    (mapInsert m k v).2 = mapLookup m k := by
  induction m with
  | nil => rfl
  | cons p rest ih =>
    by_cases h : p.1 = k <;> simp [mapInsert, mapLookup, h, ih]

theorem mapInsert_fst_of_lookup_none {β : Type} (m : KeyMap β)
    (k : List Nat) (v : β) (h : mapLookup m k = none) :
    (mapInsert m k v).1 = m ++ [(k, v)] := by
  induction m with
  | nil => rfl
  | cons p rest ih =>
    by_cases hp : p.1 = k
    · simp [mapLookup, hp] at h
    · simp [mapLookup, hp] at h
      simp [mapInsert, hp, ih h]

theorem mapLookup_some_mem {β : Type} (m : KeyMap β) (k : List Nat) (v : β)
    (h : mapLookup m k = some v) : k ∈ m.map Prod.fst := by
  induction m with
  | nil => simp [mapLookup] at h
  | cons p rest ih =>
    by_cases hp : p.1 = k
    · simp [hp]
    · simp [mapLookup, hp] at h
      simp [ih h]

-- KEY-ENCODING INJECTIVITY
-- ===============================================================

theorem leBytes8_inj (a b : Nat) (ha : a < 18446744073709551616)
    (hb : b < 18446744073709551616) (h : leBytes8 a = leBytes8 b) : a = b := by
  simp [leBytes8] at h
  omega

theorem felt_eq_of_val_eq (a b : Felt) (h : a.val = b.val) : a = b := by
  cases a
  cases b
  simp_all

theorem intoBytes_inj : Function.Injective intoBytes := by
  intro w1 w2 h
  unfold intoBytes at h
  have len8 : ∀ n : Nat, (leBytes8 n).length = 8 := fun n => rfl
  have hP : P < 18446744073709551616 := by decide
  obtain ⟨h123, h4⟩ := List.append_inj h (by simp [len8])
  obtain ⟨h12, h3⟩ := List.append_inj h123 (by simp [len8])
  obtain ⟨h1, h2⟩ := List.append_inj h12 (by simp [len8])
  have e1 := leBytes8_inj _ _ (lt_trans w1.1.isLt hP) (lt_trans w2.1.isLt hP) h1
  have e2 := leBytes8_inj _ _ (lt_trans w1.2.1.isLt hP)
    (lt_trans w2.2.1.isLt hP) h2
  have e3 := leBytes8_inj _ _ (lt_trans w1.2.2.1.isLt hP)
    (lt_trans w2.2.2.1.isLt hP) h3
  have e4 := leBytes8_inj _ _ (lt_trans w1.2.2.2.isLt hP)
    (lt_trans w2.2.2.2.isLt hP) h4
  obtain ⟨a1, a2, a3, a4⟩ := w1
  obtain ⟨b1, b2, b3, b4⟩ := w2
  simp only at e1 e2 e3 e4
  rw [felt_eq_of_val_eq _ _ e1, felt_eq_of_val_eq _ _ e2,
    felt_eq_of_val_eq _ _ e3, felt_eq_of_val_eq _ _ e4]

-- REGISTRATION-LOOP LEMMAS
-- ===============================================================

theorem registerSets_ok_of_nodup (sets : List AdviceSet) :
    ∀ acc : AdviceSetMap,
    (∀ s ∈ sets, mapLookup acc (setKey s) = none) →
    (sets.map setKey).Nodup →
    registerSets acc sets = .ok (acc ++ sets.map (fun s => (setKey s, s))) := by
  induction sets with
  | nil =>
    intro acc _ _
    simp [registerSets]
  | cons s rest ih =>
    intro acc hdisj hnd
    have hs : mapLookup acc (setKey s) = none :=
      hdisj s (List.mem_cons_self _ _)
    have hsplit : (∀ x ∈ rest, ¬setKey x = setKey s) ∧
        (List.map setKey rest).Nodup := by simpa using hnd
    obtain ⟨hkey, hnd2⟩ := hsplit
    have hdisj2 : ∀ s' ∈ rest,
        mapLookup (acc ++ [(setKey s, s)]) (setKey s') = none := by
      intro s' hs'
      rw [mapLookup_append, hdisj s' (List.mem_cons_of_mem _ hs')]
      have hne : setKey s ≠ setKey s' := fun hcontra =>
        hkey s' hs' hcontra.symm
      simp [mapLookup, hne]
    have hstep := ih (acc ++ [(setKey s, s)]) hdisj2 hnd2
    rw [registerSets]
    rw [mapInsert_snd, hs, mapInsert_fst_of_lookup_none _ _ _ hs]
    simpa using hstep

theorem registerSets_error_count (sets : List AdviceSet) :
    ∀ (acc : AdviceSetMap) (e : InputError),
    registerSets acc sets = .error e →
    ∃ k, e = .DuplicateAdviceRoot k ∧
      2 ≤ (acc.map Prod.fst ++ sets.map setKey).count k := by
  induction sets with
  | nil =>
    intro acc e h
    simp [registerSets] at h
  | cons s rest ih =>
    intro acc e h
    rw [registerSets] at h
    split at h
    · rename_i v2 hv2
      rw [mapInsert_snd] at hv2
      have hk := mapLookup_some_mem acc _ _ hv2
      refine ⟨intoBytes s.root, by
        simpa [setKey] using (Except.error.inj h).symm, ?_⟩
      have h1 : 1 ≤ (acc.map Prod.fst).count (intoBytes s.root) :=
        List.count_pos_iff.mpr hk
      simp only [setKey, List.map_cons, List.count_append]
      rw [List.count_cons_self]
      omega
    · rename_i hv2
      rw [mapInsert_snd] at hv2
      rw [mapInsert_fst_of_lookup_none _ _ _ hv2] at h
      obtain ⟨k, hk, hc⟩ := ih _ _ h
      refine ⟨k, hk, ?_⟩
      simp only [List.map_append, List.map_cons, List.count_append,
        List.count_cons, List.map_nil, List.count_nil] at hc ⊢
      simp only [setKey] at hc ⊢
      omega

theorem registerSets_ok_nodup (sets : List AdviceSet) :
    ∀ (acc : AdviceSetMap) (m : AdviceSetMap),
    registerSets acc sets = .ok m →
    (∀ s ∈ sets, mapLookup acc (setKey s) = none) ∧
      (sets.map setKey).Nodup := by
  induction sets with
  | nil =>
    intro acc m _
    simp
  | cons s rest ih =>
    intro acc m h
    rw [registerSets] at h
    split at h
    · exact absurd h (by simp)
    · rename_i hv2
      rw [mapInsert_snd] at hv2
      rw [mapInsert_fst_of_lookup_none _ _ _ hv2] at h
      obtain ⟨hdisj, hnd⟩ := ih _ _ h
      have hsep : ∀ s' ∈ rest, mapLookup acc (setKey s') = none ∧
          setKey s ≠ setKey s' := by
        intro s' hs'
        have := hdisj s' hs'
        rw [mapLookup_append] at this
        rcases ha : mapLookup acc (setKey s') with _ | v
        · rw [ha] at this
          refine ⟨rfl, ?_⟩
          simp only [mapLookup] at this
          intro hcontra
          rw [if_pos (by rw [setKey] at hcontra; exact hcontra)] at this
          exact absurd this (by simp)
        · rw [ha] at this
          exact absurd this (by simp)
      refine ⟨?_, ?_⟩
      · intro s' hs'
        rcases List.mem_cons.mp hs' with h1 | h2
        · rw [h1]
          exact hv2
        · exact (hsep s' h2).1
      · rw [List.map_cons, List.nodup_cons]
        refine ⟨?_, hnd⟩
        intro hcontra
        obtain ⟨s', hs', he⟩ := List.mem_map.mp hcontra
        exact (hsep s' hs').2 he.symm

theorem mapLookup_pairs (sets : List AdviceSet) (s : AdviceSet)
    (hnd : (sets.map setKey).Nodup) (hmem : s ∈ sets) :
    mapLookup (sets.map fun x => (setKey x, x)) (setKey s) = some s := by
  induction sets with
  | nil => simp at hmem
  | cons x rest ih =>
    have hsplit : (∀ y ∈ rest, ¬setKey y = setKey x) ∧
        (List.map setKey rest).Nodup := by simpa using hnd
    rcases List.mem_cons.mp hmem with h1 | h2
    · simp [mapLookup, h1]
    · have hne : setKey x ≠ setKey s := fun hc =>
        hsplit.1 s h2 hc.symm
      simp [mapLookup, hne, ih hsplit.2 h2]

-- STAGE-COMPOSITION LEMMAS FOR with_advice_map
-- ===============================================================

theorem with_advice_map_stack_error (stack tape : List Nat) (am : AdviceMap)
    (sets : List AdviceSet) (e : InputError)
    (h : convertElements stack.reverse "initial stack value" = .error e) :
    ProgramInputs.with_advice_map stack tape am sets = .error e := by
  simp [ProgramInputs.with_advice_map, h]

theorem with_advice_map_tape_error (stack tape : List Nat) (am : AdviceMap)
    (sets : List AdviceSet) (es : List Felt) (e : InputError)
    (hs : convertElements stack.reverse "initial stack value" = .ok es)
    (h : convertElements tape "advice tape value" = .error e) :
    ProgramInputs.with_advice_map stack tape am sets = .error e := by
  simp [ProgramInputs.with_advice_map, hs, h]

theorem with_advice_map_sets_error (stack tape : List Nat) (am : AdviceMap)
    (sets : List AdviceSet) (es ts : List Felt) (e : InputError)
    (hs : convertElements stack.reverse "initial stack value" = .ok es)
    (ht : convertElements tape "advice tape value" = .ok ts)
    (h : registerSets [] sets = .error e) :
    ProgramInputs.with_advice_map stack tape am sets = .error e := by
  simp [ProgramInputs.with_advice_map, hs, ht, h]

theorem with_advice_map_ok (stack tape : List Nat) (am : AdviceMap)
    (sets : List AdviceSet) (es ts : List Felt) (m : AdviceSetMap)
    (hs : convertElements stack.reverse "initial stack value" = .ok es)
    (ht : convertElements tape "advice tape value" = .ok ts)
    (hm : registerSets [] sets = .ok m) :
    ProgramInputs.with_advice_map stack tape am sets =
      .ok ⟨es, ts, am, m⟩ := by
  simp [ProgramInputs.with_advice_map, hs, ht, hm]

theorem with_advice_map_ok_of_valid (stack tape : List Nat) (am : AdviceMap)
    (sets : List AdviceSet) (hs : ∀ v ∈ stack, v < P)
    (ht : ∀ v ∈ tape, v < P) (hnd : (sets.map setKey).Nodup) :
    ∃ p, ProgramInputs.with_advice_map stack tape am sets = .ok p ∧
      p.stack_init.map Felt.val = stack.reverse ∧
      p.advice_tape.map Felt.val = tape ∧
      p.advice_map = am ∧
      p.advice_sets = sets.map fun s => (setKey s, s) := by
  obtain ⟨es, hse, hsm⟩ := convertElements_ok_of_valid stack.reverse
    "initial stack value" (fun v hv => hs v (List.mem_reverse.mp hv))
  obtain ⟨ts, hte, htm⟩ := convertElements_ok_of_valid tape
    "advice tape value" ht
  have hreg := registerSets_ok_of_nodup sets [] (fun s _ => rfl) hnd
  exact ⟨⟨es, ts, am, sets.map fun s => (setKey s, s)⟩,
    with_advice_map_ok _ _ _ _ _ _ _ hse hte (by simpa using hreg),
    hsm, htm, rfl, rfl⟩

theorem count_map_intoBytes (l : List Word) (r : Word) :
    (l.map intoBytes).count (intoBytes r) = l.count r := by
  induction l with
  | nil => rfl
  | cons x xs ih =>
    by_cases h : r = x
    · subst h
      simp [List.count_cons, ih]
    · have h2 : intoBytes r ≠ intoBytes x := fun hc => h (intoBytes_inj hc)
      simp [List.count_cons, ih, h, h2]

theorem nodup_keys_of_nodup_roots (sets : List AdviceSet)
    (hnd : (sets.map AdviceSet.root).Nodup) : (sets.map setKey).Nodup := by
  have : sets.map setKey = (sets.map AdviceSet.root).map intoBytes := by
    simp [setKey, List.map_map]
  rw [this]
  exact hnd.map intoBytes_inj

theorem registerSets_error_first (s2 : List AdviceSet) (s : AdviceSet)
    (s1 : List AdviceSet) : ∀ acc : AdviceSetMap,
    (∀ x ∈ s1, mapLookup acc (setKey x) = none) →
    (s1.map setKey).Nodup →
    (setKey s ∈ s1.map setKey ∨ mapLookup acc (setKey s) ≠ none) →
    registerSets acc (s1 ++ s :: s2) =
      .error (.DuplicateAdviceRoot (setKey s)) := by
  induction s1 with
  | nil =>
    intro acc _ _ hin
    have hne : mapLookup acc (setKey s) ≠ none := by
      rcases hin with h | h
      · simp at h
      · exact h
    obtain ⟨v, hv⟩ := Option.ne_none_iff_exists'.mp hne
    rw [List.nil_append, registerSets, mapInsert_snd, hv]
  | cons x rest ih =>
    intro acc hdisj hnd hin
    have hx : mapLookup acc (setKey x) = none :=
      hdisj x (List.mem_cons_self _ _)
    have hsplit : (∀ y ∈ rest, ¬setKey y = setKey x) ∧
        (List.map setKey rest).Nodup := by simpa using hnd
    rw [List.cons_append, registerSets, mapInsert_snd, hx,
      mapInsert_fst_of_lookup_none _ _ _ hx]
    apply ih
    · intro y hy
      rw [mapLookup_append, hdisj y (List.mem_cons_of_mem _ hy)]
      have hne : setKey x ≠ setKey y := fun hc =>
        hsplit.1 y hy hc.symm
      simp [mapLookup, hne]
    · exact hsplit.2
    · rcases hin with h | h
      · rw [List.map_cons] at h
        rcases List.mem_cons.mp h with h1 | h2
        · right
          rw [mapLookup_append, h1, hx]
          simp [mapLookup]
        · left
          exact h2
      · right
        rw [mapLookup_append]
        obtain ⟨v, hv⟩ := Option.ne_none_iff_exists'.mp h
        rw [hv]
        simp

-- CLAIM THEOREMS
-- ===============================================================

/-- C1: construction with more than `MIN_STACK_DEPTH = 16` initial stack
values does NOT fail: `with_advice_map` performs no length check, so 17
zero-valued initial stack entries are accepted and all 17 end up in
`stack_init`, contradicting the documented (and claimed) bound of 16. -/
theorem stack_limit_not_enforced :
    ∃ p, ProgramInputs.with_advice_map (List.replicate 17 0) [] [] [] =
        .ok p ∧
      p.stack_init.length = 17 ∧ MIN_STACK_DEPTH < p.stack_init.length := by
  obtain ⟨es, he, hm⟩ := convertElements_ok_of_valid
    (List.replicate 17 0).reverse "initial stack value" (by simp [P])
  have hlen : es.length = 17 := by
    have := congrArg List.length hm
    simpa using this
  refine ⟨⟨es, [], [], []⟩, ?_, hlen, ?_⟩
  · exact with_advice_map_ok _ _ _ _ _ _ _ he rfl rfl
  · rw [hlen]
    decide

/-- C2: whenever some raw stack or tape value is at least the field modulus,
construction fails with a `NotFieldElement` error that carries a raw value
which really is an out-of-range value of the corresponding input, tagged
"initial stack value" for stack values and "advice tape value" for tape
values. -/
theorem not_field_element_tagged (stack tape : List Nat) (am : AdviceMap)
    (sets : List AdviceSet)
    (h : (∃ v ∈ stack, P ≤ v) ∨ ∃ v ∈ tape, P ≤ v) :
    ∃ w nm, ProgramInputs.with_advice_map stack tape am sets =
        .error (.NotFieldElement w nm) ∧
      ((w ∈ stack ∧ P ≤ w ∧ nm = "initial stack value") ∨
        (w ∈ tape ∧ P ≤ w ∧ nm = "advice tape value")) := by
  by_cases hs : ∃ v ∈ stack, P ≤ v
  · obtain ⟨v, hvr, hvp⟩ := hs
    obtain ⟨w, hw, hwp, he⟩ := convertElements_error_of_invalid
      stack.reverse "initial stack value"
      ⟨v, List.mem_reverse.mpr hvr, hvp⟩
    exact ⟨w, "initial stack value",
      with_advice_map_stack_error _ _ _ _ _ he,
      Or.inl ⟨List.mem_reverse.mp hw, hwp, rfl⟩⟩
  · have hstack : ∀ v ∈ stack.reverse, v < P := by
      push_neg at hs
      intro v hv
      exact hs v (List.mem_reverse.mp hv)
    obtain ⟨es, hse, _⟩ := convertElements_ok_of_valid stack.reverse
      "initial stack value" hstack
    obtain ⟨w, hw, hwp, he⟩ := convertElements_error_of_invalid tape
      "advice tape value" (h.resolve_left hs)
    exact ⟨w, "advice tape value",
      with_advice_map_tape_error _ _ _ _ _ _ hse he,
      Or.inr ⟨hw, hwp, rfl⟩⟩

/-- C2 witness: a stack containing the modulus itself fails with the
stack-side tag at a concrete input. -/
theorem not_field_element_tagged_witness :
    ∃ w nm, ProgramInputs.with_advice_map [P] [] [] [] =
        .error (.NotFieldElement w nm) ∧
      ((w ∈ [P] ∧ P ≤ w ∧ nm = "initial stack value") ∨
        (w ∈ ([] : List Nat) ∧ P ≤ w ∧ nm = "advice tape value")) :=
  not_field_element_tagged [P] [] [] []
    (Or.inl ⟨P, List.mem_singleton_self P, Nat.le_refl P⟩)

/-- C5: the three declared trace regions (system, stack, auxiliary table) are
contiguous `(start, stop)` ranges, each region starts exactly where the
previous one ends, the first starts at column 0, the last ends at
`TRACE_WIDTH`, the widths sum to `TRACE_WIDTH`, and no column index lies in
two regions. -/
theorem trace_layout_partition :
    SYS_TRACE_RANGE.1 = 0 ∧
    SYS_TRACE_RANGE.2 = SYS_TRACE_RANGE.1 + SYS_TRACE_WIDTH ∧
    STACK_TRACE_RANGE.1 = SYS_TRACE_RANGE.2 ∧
    STACK_TRACE_RANGE.2 = STACK_TRACE_RANGE.1 + STACK_TRACE_WIDTH ∧
    AUX_TRACE_RANGE.1 = STACK_TRACE_RANGE.2 ∧
    AUX_TRACE_RANGE.2 = AUX_TRACE_RANGE.1 + AUX_TRACE_WIDTH ∧
    AUX_TRACE_RANGE.2 = TRACE_WIDTH ∧
    SYS_TRACE_WIDTH + STACK_TRACE_WIDTH + AUX_TRACE_WIDTH = TRACE_WIDTH ∧
    (∀ i, ¬(memRange SYS_TRACE_RANGE i ∧ memRange STACK_TRACE_RANGE i)) ∧
    (∀ i, ¬(memRange SYS_TRACE_RANGE i ∧ memRange AUX_TRACE_RANGE i)) ∧
    (∀ i, ¬(memRange STACK_TRACE_RANGE i ∧ memRange AUX_TRACE_RANGE i)) := by
  refine ⟨rfl, rfl, rfl, rfl, rfl, rfl, rfl, rfl, ?_, ?_, ?_⟩ <;>
  · intro i hi
    simp only [memRange, SYS_TRACE_RANGE, STACK_TRACE_RANGE, AUX_TRACE_RANGE,
      range, SYS_TRACE_OFFSET, SYS_TRACE_WIDTH, STACK_TRACE_OFFSET,
      STACK_TRACE_WIDTH, AUX_TRACE_OFFSET, AUX_TRACE_WIDTH,
      MIN_STACK_DEPTH] at hi
    omega

/-- C9: `into_parts` is lossless: the four returned containers are exactly
the value's stack sequence, tape sequence, advice map, and advice-set
mapping, so the first two coincide with the `stack_init`/`advice_tape` views
observable before decomposition. -/
theorem into_parts_lossless (p : ProgramInputs) :
    ProgramInputs.into_parts p =
      (p.stack_init, p.advice_tape, p.advice_map, p.advice_sets) := rfl

/-- C10: the advice map supplied to `with_advice_map` is stored unmodified:
on any successful construction, decomposition returns it unchanged. -/
theorem advice_map_passthrough (stack tape : List Nat) (am : AdviceMap)
    (sets : List AdviceSet) (p : ProgramInputs)
    (h : ProgramInputs.with_advice_map stack tape am sets = .ok p) :
    (ProgramInputs.into_parts p).2.2.1 = am := by
  rw [ProgramInputs.with_advice_map] at h
  split at h
  · exact absurd h (by simp)
  · split at h
    · exact absurd h (by simp)
    · split at h
      · exact absurd h (by simp)
      · rw [← Except.ok.inj h]
        rfl

/-- C10 witness: a concrete one-entry advice map survives construction and
decomposition unchanged. -/
theorem advice_map_passthrough_witness :
    (ProgramInputs.into_parts
        ⟨[], [], [(intoBytes word0, [felt1])], []⟩).2.2.1 =
      [(intoBytes word0, [felt1])] :=
  advice_map_passthrough [] [] [(intoBytes word0, [felt1])] []
    ⟨[], [], [(intoBytes word0, [felt1])], []⟩ rfl

/-- C3: with valid stack and tape values, construction fails with
`DuplicateAdviceRoot` carrying the byte encoding of a root shared by two of
the supplied advice sets whenever such a duplicate exists, and succeeds with
every supplied set retrievable under the byte encoding of its own root
whenever all roots are pairwise distinct. -/
theorem advice_root_registration (stack tape : List Nat) (am : AdviceMap)
    (sets : List AdviceSet) (hs : ∀ v ∈ stack, v < P)
    (ht : ∀ v ∈ tape, v < P) :
    (¬(sets.map AdviceSet.root).Nodup →
      ∃ r, ProgramInputs.with_advice_map stack tape am sets =
          .error (.DuplicateAdviceRoot (intoBytes r)) ∧
        2 ≤ (sets.map AdviceSet.root).count r) ∧
    ((sets.map AdviceSet.root).Nodup →
      ∃ p, ProgramInputs.with_advice_map stack tape am sets = .ok p ∧
        ∀ s ∈ sets, mapLookup p.advice_sets (intoBytes s.root) = some s) := by
  have hkeys : sets.map setKey = (sets.map AdviceSet.root).map intoBytes := by
    simp [setKey, List.map_map]
  constructor
  · intro hnd
    have hknd : ¬(sets.map setKey).Nodup := by
      rw [hkeys]
      exact fun hc => hnd (hc.of_map intoBytes)
    obtain ⟨es, hse, _⟩ := convertElements_ok_of_valid stack.reverse
      "initial stack value" (fun v hv => hs v (List.mem_reverse.mp hv))
    obtain ⟨ts, hte, _⟩ := convertElements_ok_of_valid tape
      "advice tape value" ht
    cases hreg : registerSets [] sets with
    | ok m => exact absurd (registerSets_ok_nodup sets [] m hreg).2 hknd
    | error e =>
      obtain ⟨k, hk, hc⟩ := registerSets_error_count sets [] e hreg
      have hc2 : 2 ≤ ((sets.map AdviceSet.root).map intoBytes).count k := by
        rw [← hkeys]
        simpa using hc
      have hkmem : k ∈ (sets.map AdviceSet.root).map intoBytes :=
        List.count_pos_iff.mp (by omega)
      obtain ⟨r, hr, hrk⟩ := List.mem_map.mp hkmem
      refine ⟨r, ?_, ?_⟩
      · rw [hk, ← hrk] at hreg
        exact with_advice_map_sets_error _ _ _ _ _ _ _ hse hte hreg
      · rw [← hrk] at hc2
        rw [count_map_intoBytes] at hc2
        exact hc2
  · intro hnd
    obtain ⟨p, hp, _, _, _, hsets⟩ := with_advice_map_ok_of_valid stack tape
      am sets hs ht (nodup_keys_of_nodup_roots sets hnd)
    refine ⟨p, hp, ?_⟩
    intro s hmem
    rw [hsets]
    exact mapLookup_pairs sets s (nodup_keys_of_nodup_roots sets hnd) hmem

/-- C3 witness: the same set supplied twice fails with its root's key; two
sets with distinct roots succeed and are each retrievable. -/
theorem advice_root_registration_witness :
    (∃ r, ProgramInputs.with_advice_map [] [] [] [setA, setA] =
        .error (.DuplicateAdviceRoot (intoBytes r)) ∧
      2 ≤ (([setA, setA]).map AdviceSet.root).count r) ∧
    (∃ p, ProgramInputs.with_advice_map [] [] [] [setA, setB] = .ok p ∧
      ∀ s ∈ [setA, setB], mapLookup p.advice_sets (intoBytes s.root) =
        some s) :=
  ⟨(advice_root_registration [] [] [] [setA, setA] (by simp)
      (by simp)).1 (by decide),
    (advice_root_registration [] [] [] [setA, setB] (by simp)
      (by simp)).2 (by decide)⟩

/-- C4: for a stack sequence of at most 16 valid raw values (and otherwise
valid inputs), construction succeeds and the `stack_init` view holds the
converted elements in reverse of the caller's input order, so the caller's
last element sits on top of the stack. -/
theorem stack_init_reversed (stack tape : List Nat) (am : AdviceMap)
    (sets : List AdviceSet) (_hlen : stack.length ≤ 16)
    (hs : ∀ v ∈ stack, v < P) (ht : ∀ v ∈ tape, v < P)
    (hnd : (sets.map AdviceSet.root).Nodup) :
    ∃ p, ProgramInputs.with_advice_map stack tape am sets = .ok p ∧
      p.stack_init.map Felt.val = stack.reverse := by
  obtain ⟨p, hp, hstack, _⟩ := with_advice_map_ok_of_valid stack tape am
    sets hs ht (nodup_keys_of_nodup_roots sets hnd)
  exact ⟨p, hp, hstack⟩

/-- C4 witness: input `[5, 7]` is observed as `[7, 5]`, with 7 on top. -/
theorem stack_init_reversed_witness :
    ∃ p, ProgramInputs.with_advice_map [5, 7] [] [] [] = .ok p ∧
      p.stack_init.map Felt.val = ([5, 7] : List Nat).reverse :=
  stack_init_reversed [5, 7] [] [] [] (by decide) (by decide)
    (by decide) (by decide)

/-- C6: validation proceeds stack values first (in reverse input order),
then tape values (in input order), then advice-set registration, and the
first failure wins: whatever later items look like, the error reported is
the one for the earliest failing item in that order, and no `ProgramInputs`
value is produced (the result is an `error`, never an `ok`). -/
theorem first_failure_wins (stack tape : List Nat) (am : AdviceMap)
    (sets : List AdviceSet) :
    (∀ l1 v l2, stack.reverse = l1 ++ v :: l2 → (∀ u ∈ l1, u < P) →
      P ≤ v →
      ProgramInputs.with_advice_map stack tape am sets =
        .error (.NotFieldElement v "initial stack value")) ∧
    (∀ l1 v l2, (∀ u ∈ stack, u < P) → tape = l1 ++ v :: l2 →
      (∀ u ∈ l1, u < P) → P ≤ v →
      ProgramInputs.with_advice_map stack tape am sets =
        .error (.NotFieldElement v "advice tape value")) ∧
    (∀ s1 s s2, (∀ u ∈ stack, u < P) → (∀ u ∈ tape, u < P) →
      sets = s1 ++ s :: s2 → (s1.map AdviceSet.root).Nodup →
      s.root ∈ s1.map AdviceSet.root →
      ProgramInputs.with_advice_map stack tape am sets =
        .error (.DuplicateAdviceRoot (intoBytes s.root))) := by
  refine ⟨?_, ?_, ?_⟩
  · intro l1 v l2 hdec h1 hv
    apply with_advice_map_stack_error
    rw [hdec]
    exact convertElements_error_first l1 v l2 _ h1 hv
  · intro l1 v l2 hstack hdec h1 hv
    obtain ⟨es, hse, _⟩ := convertElements_ok_of_valid stack.reverse
      "initial stack value" (fun u hu => hstack u (List.mem_reverse.mp hu))
    apply with_advice_map_tape_error _ _ _ _ _ _ hse
    rw [hdec]
    exact convertElements_error_first l1 v l2 _ h1 hv
  · intro s1 s s2 hstack htape hdec hnd hmem
    obtain ⟨es, hse, _⟩ := convertElements_ok_of_valid stack.reverse
      "initial stack value" (fun u hu => hstack u (List.mem_reverse.mp hu))
    obtain ⟨ts, hte, _⟩ := convertElements_ok_of_valid tape
      "advice tape value" htape
    apply with_advice_map_sets_error _ _ _ _ _ _ _ hse hte
    rw [hdec]
    have hkmem : setKey s ∈ s1.map setKey := by
      have : s1.map setKey = (s1.map AdviceSet.root).map intoBytes := by
        simp [setKey, List.map_map]
      rw [this, setKey]
      exact List.mem_map_of_mem intoBytes hmem
    exact registerSets_error_first s2 s s1 [] (fun x _ => rfl)
      (nodup_keys_of_nodup_roots s1 hnd) (Or.inl hkmem)

/-- C6 witness: the three first-failure scenarios at concrete inputs: a bad
stack value wins over a bad tape value; a bad tape value is tagged as such
when the stack is valid; a duplicate root is reported once conversion
succeeded. -/
theorem first_failure_wins_witness :
    ProgramInputs.with_advice_map [P] [P + 1] [] [] =
      .error (.NotFieldElement P "initial stack value") ∧
    ProgramInputs.with_advice_map [1] [P] [] [] =
      .error (.NotFieldElement P "advice tape value") ∧
    ProgramInputs.with_advice_map [1] [2] [] [setA, setA] =
      .error (.DuplicateAdviceRoot (intoBytes setA.root)) :=
  ⟨(first_failure_wins [P] [P + 1] [] []).1 [] P [] rfl
      (by simp) (Nat.le_refl P),
    (first_failure_wins [1] [P] [] []).2.1 [] P [] (by decide) rfl
      (by simp) (Nat.le_refl P),
    (first_failure_wins [1] [2] [] [setA, setA]).2.2 [setA] setA []
      (by decide) (by decide) rfl (by decide) (by decide)⟩

/-- C7: for a tape sequence of valid raw values (and otherwise valid
inputs), construction succeeds and the `advice_tape` view holds the
converted elements in the caller's original order, with the same length and
no element modified, inserted, or dropped. -/
theorem advice_tape_preserved (stack tape : List Nat) (am : AdviceMap)
    (sets : List AdviceSet) (hs : ∀ v ∈ stack, v < P)
    (ht : ∀ v ∈ tape, v < P) (hnd : (sets.map AdviceSet.root).Nodup) :
    ∃ p, ProgramInputs.with_advice_map stack tape am sets = .ok p ∧
      p.advice_tape.map Felt.val = tape ∧
      p.advice_tape.length = tape.length := by
  obtain ⟨p, hp, _, htape, _⟩ := with_advice_map_ok_of_valid stack tape am
    sets hs ht (nodup_keys_of_nodup_roots sets hnd)
  refine ⟨p, hp, htape, ?_⟩
  rw [← htape, List.length_map]

/-- C7 witness: tape `[9, 9, 9]` is preserved in order and length. -/
theorem advice_tape_preserved_witness :
    ∃ p, ProgramInputs.with_advice_map [] [9, 9, 9] [] [] = .ok p ∧
      p.advice_tape.map Felt.val = [9, 9, 9] ∧
      p.advice_tape.length = ([9, 9, 9] : List Nat).length :=
  advice_tape_preserved [] [9, 9, 9] [] [] (by decide) (by decide)
    (by decide)

-- MERKLE-PATH LEMMAS
-- ===============================================================

theorem get_leaf_index_lt (t : MerkleTree) :
    ∀ (d i : Nat) (w : Word), t.get_leaf d i = some w → i < 2 ^ d := by
  induction t with
  | leaf w0 =>
    intro d i w h
    cases d with
    | zero =>
      simp only [MerkleTree.get_leaf] at h
      split at h
      · rename_i h0
        simp [h0]
      · exact absurd h (by simp)
    | succ d' => exact absurd h (by simp [MerkleTree.get_leaf])
  | node l r ihl ihr =>
    intro d i w h
    cases d with
    | zero => exact absurd h (by simp [MerkleTree.get_leaf])
    | succ d' =>
      simp only [MerkleTree.get_leaf] at h
      have hstep : (2:Nat) ^ (d' + 1) = 2 ^ d' + 2 ^ d' := by
        rw [pow_succ]
        omega
      by_cases hi : i < 2 ^ d'
      · omega
      · rw [if_neg hi] at h
        have := ihr d' (i - 2 ^ d') w h
        omega

theorem get_path_length (merge : Word → Word → Word) (t : MerkleTree) :
    ∀ (d i : Nat) (p : List Word), t.get_path merge d i = some p →
      p.length = d := by
  induction t with
  | leaf w =>
    intro d i p h
    cases d with
    | zero =>
      simp only [MerkleTree.get_path] at h
      split at h
      · cases h
        rfl
      · exact absurd h (by simp)
    | succ d' => exact absurd h (by simp [MerkleTree.get_path])
  | node l r ihl ihr =>
    intro d i p h
    cases d with
    | zero => exact absurd h (by simp [MerkleTree.get_path])
    | succ d' =>
      simp only [MerkleTree.get_path] at h
      by_cases hi : i < 2 ^ d'
      · rw [if_pos hi] at h
        obtain ⟨q, hq, rfl⟩ := Option.map_eq_some'.mp h
        simp [ihl d' i q hq]
      · rw [if_neg hi] at h
        obtain ⟨q, hq, rfl⟩ := Option.map_eq_some'.mp h
        simp [ihr d' (i - 2 ^ d') q hq]

theorem computeRoot_append (merge : Word → Word → Word) (p : List Word) :
    ∀ (q : List Word) (i : Nat) (w : Word),
    computeRoot merge i w (p ++ q) =
      computeRoot merge (i / 2 ^ p.length) (computeRoot merge i w p) q := by
  induction p with
  | nil =>
    intro q i w
    simp [computeRoot]
  | cons s rest ih =>
    intro q i w
    rw [List.cons_append, computeRoot, ih, computeRoot]
    congr 1
    rw [Nat.div_div_eq_div_mul, List.length_cons]
    congr 1
    exact (pow_succ' 2 rest.length).symm

theorem computeRoot_congr_mod (merge : Word → Word → Word) (p : List Word) :
    ∀ (i j : Nat) (w : Word), i % 2 ^ p.length = j % 2 ^ p.length →
    computeRoot merge i w p = computeRoot merge j w p := by
  induction p with
  | nil =>
    intro i j w _
    rfl
  | cons s rest ih =>
    intro i j w h
    rw [List.length_cons] at h
    have d1 : (2:Nat) ∣ 2 ^ (rest.length + 1) :=
      dvd_pow_self 2 (Nat.succ_ne_zero _)
    have h2 : i % 2 = j % 2 := by
      calc i % 2 = i % 2 ^ (rest.length + 1) % 2 :=
            (Nat.mod_mod_of_dvd i d1).symm
        _ = j % 2 ^ (rest.length + 1) % 2 := by rw [h]
        _ = j % 2 := Nat.mod_mod_of_dvd j d1
    have key : ∀ x : Nat, x / 2 % 2 ^ rest.length =
        x % 2 ^ (rest.length + 1) / 2 := by
      intro x
      rw [← Nat.mod_mul_right_div_self x 2 (2 ^ rest.length), ← pow_succ']
    have h3 : i / 2 % 2 ^ rest.length = j / 2 % 2 ^ rest.length := by
      rw [key i, key j, h]
    rw [computeRoot, computeRoot, h2]
    exact ih _ _ _ h3

/-- C8: for every balanced Merkle tree, every two-to-one hash, and every
`(index, depth)` pair accepted by `get_leaf` and `get_path`, re-hashing the
returned leaf against the returned ordered sibling sequence reproduces the
tree's root exactly. -/
theorem merkle_path_verifies (merge : Word → Word → Word) (t : MerkleTree)
    (d i : Nat) (leaf : Word) (path : List Word)
    (hleaf : t.get_leaf d i = some leaf)
    (hpath : t.get_path merge d i = some path) :
    computeRoot merge i leaf path = t.root merge := by
  induction t generalizing d i path with
  | leaf w =>
    cases d with
    | zero =>
      simp only [MerkleTree.get_leaf] at hleaf
      simp only [MerkleTree.get_path] at hpath
      split at hleaf
      · rename_i h0
        cases hleaf
        rw [if_pos h0] at hpath
        cases hpath
        rfl
      · exact absurd hleaf (by simp)
    | succ d' => exact absurd hleaf (by simp [MerkleTree.get_leaf])
  | node l r ihl ihr =>
    cases d with
    | zero => exact absurd hleaf (by simp [MerkleTree.get_leaf])
    | succ d' =>
      simp only [MerkleTree.get_leaf] at hleaf
      simp only [MerkleTree.get_path] at hpath
      by_cases hi : i < 2 ^ d'
      · rw [if_pos hi] at hleaf hpath
        obtain ⟨p, hp, rfl⟩ := Option.map_eq_some'.mp hpath
        have hlen := get_path_length merge l d' i p hp
        rw [computeRoot_append, hlen, Nat.div_eq_of_lt hi,
          ihl d' i p hleaf hp]
        simp [computeRoot, MerkleTree.root]
      · rw [if_neg hi] at hleaf hpath
        obtain ⟨p, hp, rfl⟩ := Option.map_eq_some'.mp hpath
        have hlen := get_path_length merge r d' (i - 2 ^ d') p hp
        have hlt := get_leaf_index_lt r d' (i - 2 ^ d') leaf hleaf
        have hge : 2 ^ d' ≤ i := Nat.le_of_not_lt hi
        rw [computeRoot_append, hlen]
        have hcr : computeRoot merge i leaf p =
            computeRoot merge (i - 2 ^ d') leaf p := by
          apply computeRoot_congr_mod
          rw [hlen]
          exact Nat.mod_eq_sub_mod hge
        have hdiv : i / 2 ^ d' = 1 :=
          Nat.div_eq_of_lt_le (by omega) (by omega)
        rw [hcr, ihr d' (i - 2 ^ d') p hleaf hp, hdiv]
        simp [computeRoot, MerkleTree.root]

/-- C8 witness: in the two-leaf tree with leaves `word0`, `word1` under the
concrete hash `mergeFst`, the leaf and path returned for index 1 at depth 1
re-hash to the root. -/
theorem merkle_path_verifies_witness :
    (MerkleTree.node (.leaf word0) (.leaf word1)).get_leaf 1 1 =
        some word1 ∧
      (MerkleTree.node (.leaf word0) (.leaf word1)).get_path mergeFst 1 1 =
        some [word0] ∧
      computeRoot mergeFst 1 word1 [word0] =
        (MerkleTree.node (.leaf word0) (.leaf word1)).root mergeFst :=
  ⟨rfl, rfl,
    merkle_path_verifies mergeFst
      (MerkleTree.node (.leaf word0) (.leaf word1)) 1 1 word1 [word0]
      rfl rfl⟩

end Miden
